import Mathlib

set_option maxRecDepth 8000

/-!
Verification of the try/catch rewriting script in remove_catches.py.

The script reads a file, splits it into lines, scans for lines that open a
try block, brace-counts forward to locate a candidate closing line, checks
the following line for a catch header, brace-counts the catch block, and if
the catch body matches a comment-only regex it emits the try body with its
wrapper stripped; in all other cases it emits lines unchanged.  Finally it
joins the resulting lines with newline.

The definitions below are a line-by-line shallow embedding of that script.
Python regular expressions are embedded by their (deterministic) greedy
semantics on the concrete patterns the script uses; machine details that the
script does not exercise (non-ASCII whitespace classes) are fixed to the
ASCII whitespace set.
-/

/-- The opening curly brace character. -/
def lbrace : Char := '\x7b'

/-- The closing curly brace character. -/
def rbrace : Char := '\x7d'

/-- The ASCII whitespace class of Python regexes and of str.strip. -/
def pyWhite (c : Char) : Bool :=
  c = ' ' || c = '\t' || c = '\n' || c = '\r' || c = '\x0b' || c = '\x0c'

/-- Occurrences of a character in a line, as in the Python call line.count. -/
def countChar (c : Char) (s : String) : Nat :=
  s.toList.count c

/-- Membership test, as in the Python expression c in line. -/
def containsChar (c : Char) (s : String) : Bool :=
  s.toList.contains c

/-- Net brace delta of one line, as accumulated by the script. -/
def braceDelta (s : String) : Int :=
  (countChar lbrace s : Int) - (countChar rbrace s : Int)

/-- Whether the first list is a prefix of the second, on characters. -/
def startsWithList : List Char → List Char → Bool
  | [], _ => true
  | _ :: _, [] => false
  | p :: ps, c :: cs => p = c && startsWithList ps cs

/-- Substring test, as in the Python expression sub in line. -/
def hasSubstr (p : List Char) : List Char → Bool
  | [] => startsWithList p []
  | c :: cs => startsWithList p (c :: cs) || hasSubstr p cs

/-- Whether a list of characters begins with the given character. -/
def headEq (c : Char) : List Char → Bool
  | [] => false
  | d :: _ => d = c

/-- The anchored pattern that opens a try construct: optional whitespace,
the word try, optional whitespace, an opening brace. -/
def matchTryOpen (s : String) : Bool :=
  let r := s.toList.dropWhile pyWhite
  startsWithList ['t', 'r', 'y'] r && headEq lbrace ((r.drop 3).dropWhile pyWhite)

/-- The anchored catch-header pattern: optional whitespace, a closing brace,
optional whitespace, the word catch, optional whitespace, a parenthesised
parameter, optional whitespace, an opening brace. -/
def matchCatchHeader (s : String) : Bool :=
  match s.toList.dropWhile pyWhite with
  | [] => false
  | c :: r1 =>
    c = rbrace &&
      (let r2 := r1.dropWhile pyWhite
       startsWithList ['c', 'a', 't', 'c', 'h'] r2 &&
         (match (r2.drop 5).dropWhile pyWhite with
          | [] => false
          | d :: r4 =>
            d = '(' &&
              (match r4.dropWhile (fun ch => ch != ')') with
               | [] => false
               | e :: r6 => e = ')' && headEq lbrace (r6.dropWhile pyWhite))))

/-- Substitution of the try-open pattern by the empty string (anchored at the
start of the line, so it removes at most one prefix). -/
def stripTryOpen (s : String) : String :=
  let r := s.toList.dropWhile pyWhite
  if startsWithList ['t', 'r', 'y'] r then
    match (r.drop 3).dropWhile pyWhite with
    | c :: rest => if c = lbrace then String.mk rest else s
    | [] => s
  else s

/-- Substitution removing a final closing brace together with the whitespace
following it, when the line ends that way. -/
def stripCloseBrace (s : String) : String :=
  match s.toList.reverse.dropWhile pyWhite with
  | c :: rest => if c = rbrace then String.mk rest.reverse else s
  | [] => s

/-- Python str.strip on a character list. -/
def pyStripList (cs : List Char) : List Char :=
  ((cs.dropWhile pyWhite).reverse.dropWhile pyWhite).reverse

/-- Greedy matcher for the comment-only regex used by the script: optional
whitespace, then a repetition of single-line comments each running to the end
of its line, separated by whitespace, until the end of the text.  The flag is
true while the matcher is inside a comment. -/
def commentScan : Bool → List Char → Bool
  | _, [] => true
  | true, c :: cs => if c = '\n' then commentScan false cs else commentScan true cs
  | false, c :: cs =>
    if pyWhite c then commentScan false cs
    else if c = '/' then
      match cs with
      | d :: cs2 => if d = '/' then commentScan true cs2 else false
      | [] => false
    else false

/-- The newline join used by the script. -/
def joinNL : List String → List Char
  | [] => []
  | [s] => s.toList
  | s :: rest => s.toList ++ '\n' :: joinNL rest

/-- The script's comment-only test on a catch body, given as the list of
lines strictly inside the catch braces: join with newline, strip, and match
the comment-only regex. -/
def commentOnlyCheck (body : List String) : Bool :=
  commentScan false (pyStripList (joinNL body))

/-- The brace scan shared by the try and catch searches: walk the lines while
accumulating the brace delta and return the first index at which the
accumulated count is zero and the line holds the target character. -/
def scanZero (target : Char) : List String → Int → Nat → Option Nat
  | [], _, _ => none
  | s :: rest, acc, j =>
    let a := acc + braceDelta s
    if a = 0 ∧ containsChar target s = true then some j
    else scanZero target rest a (j + 1)

/-- The script's search for the line closing a try block opened at index i:
first line from i on at which the accumulated brace count is zero and that
holds an opening brace. -/
def findClose (lines : List String) (i : Nat) : Option Nat :=
  scanZero lbrace (lines.drop i) 0 i

/-- The script's search for the line ending a catch block whose header is at
index m: first line from m on at which the accumulated brace count is zero
and that holds a closing brace. -/
def findCatchEnd (lines : List String) (m : Nat) : Option Nat :=
  scanZero rbrace (lines.drop m) 0 m

/-- The unwrapped try body emitted by the removal branch: the lines from the
try header at i to the closing line at j, with the try-open prefix removed
from the first line and the final closing brace removed from the last. -/
def tryContent (lines : List String) (i j : Nat) : List String :=
  (List.range' i (j + 1 - i)).map (fun l =>
    let s := lines.getD l ""
    let s1 := if l = i then stripTryOpen s else s
    if l = j then stripCloseBrace s1 else s1)

/-- The inner scan the script runs after reading a try header at index i0.
It walks the lines from index j on (js is the corresponding suffix of the
line list) while accumulating the brace delta.  When the count is zero on a
line holding an opening brace it examines the following line; a well-formed
catch header whose block closes leads to emitting either the unwrapped try
body (comment-only catch) or the original span from i0, after which the walk
continues with the running count and an updated resumption index cur.  In
every other outcome the walk stops, emitting the header line once more and
resuming at cur + 1; the value for an exhausted walk is never reached from a
start index inside the list. -/
def tryScan (lines : List String) (i0 : Nat) (header : String) :
    List String → Nat → Int → Nat → List String × Nat
  | [], _, _, cur => ([], cur)
  | s :: rest, j, acc, cur =>
    let a := acc + braceDelta s
    if a = 0 ∧ containsChar lbrace s = true then
      let nextLine := lines.getD (j + 1) ""
      if j + 1 < lines.length ∧ hasSubstr ['c', 'a', 't', 'c', 'h'] nextLine.toList = true then
        if matchCatchHeader nextLine then
          match findCatchEnd lines (j + 1) with
          | none => ([header], cur + 1)
          | some k =>
            let content := (lines.drop (j + 1)).take (k - j)
            let chunk :=
              if commentOnlyCheck ((content.drop 1).dropLast) then tryContent lines i0 j
              else (lines.drop i0).take (k + 1 - i0)
            let next := tryScan lines i0 header rest (j + 1) a (k + 1)
            (chunk ++ next.1, next.2)
        else ([header], cur + 1)
      else ([header], cur + 1)
    else if j = lines.length - 1 then ([header], cur + 1)
    else tryScan lines i0 header rest (j + 1) a cur

/-- One iteration of the script's main scan at index i: the lines emitted by
that iteration and the next value of i. -/
def stepAt (lines : List String) (i : Nat) : List String × Nat :=
  let line := lines.getD i ""
  if matchTryOpen line then tryScan lines i line (lines.drop i) i 0 i
  else ([line], i + 1)

/-- The main scan, driven by fuel; one unit of fuel is one iteration of the
script's while loop.  Since every iteration strictly increases i, fuel equal
to the number of lines is always enough. -/
def processAux (lines : List String) : Nat → Nat → List String
  | 0, _ => []
  | g + 1, i =>
    if i < lines.length then
      (stepAt lines i).1 ++ processAux lines g (stepAt lines i).2
    else []

/-- The whole transformation on a list of lines. -/
def rewriteLines (lines : List String) : List String :=
  processAux lines lines.length 0

/-- Python str.split on the newline character. -/
def splitNL : List Char → List (List Char)
  | [] => [[]]
  | c :: rest =>
    if c = '\n' then [] :: splitNL rest
    else
      match splitNL rest with
      | h :: t => (c :: h) :: t
      | [] => [[c]]

/-- The whole transformation on a text: split into lines, rewrite, join. -/
def rewriteText (content : String) : String :=
  String.mk (joinNL (rewriteLines ((splitNL content.toList).map (fun l => String.mk l))))

/-- The spec's wording of the close condition for the try scan, for
comparison with findClose: the first line at which the accumulated brace
count returns to zero and that holds a closing brace. -/
def closeScanSpec (lines : List String) (i : Nat) : Option Nat :=
  scanZero rbrace (lines.drop i) 0 i

/-- The per-line comment test named by the spec, on characters: after
dropping leading whitespace the line is empty or begins with two slashes. -/
def goodLineChars (cs : List Char) : Bool :=
  match cs.dropWhile pyWhite with
  | [] => true
  | c :: rest =>
    c = '/' &&
      (match rest with
       | d :: _ => d = '/'
       | [] => false)

/-- The per-line comment test named by the spec: after trimming whitespace
the line is empty or begins with the single-line comment marker. -/
def goodLine (s : String) : Bool :=
  goodLineChars s.toList

/-- The total brace delta of a list of lines. -/
def deltaSum (l : List String) : Int :=
  (l.map braceDelta).sum

/-- The accumulated brace count of lines i through j inclusive, as tracked by
the script's scan started at line i. -/
def braceSum (lines : List String) (i j : Nat) : Int :=
  deltaSum ((lines.drop i).take (j + 1 - i))

/-!
Basic properties of the scans.
-/

theorem scanZero_le (t : Char) :
    ∀ (js : List String) (acc : Int) (j k : Nat),
      scanZero t js acc j = some k → j ≤ k := by
  intro js
  induction js with
  | nil => intro acc j k h; simp [scanZero] at h
  | cons s rest ih =>
    intro acc j k h
    simp only [scanZero] at h
    split at h
    · injection h with h2; omega
    · have h3 := ih _ _ _ h; omega

theorem findCatchEnd_le (lines : List String) (m k : Nat)
    (h : findCatchEnd lines m = some k) : m ≤ k :=
  scanZero_le rbrace _ _ _ _ h

theorem processAux_nil (lines : List String) (g i : Nat) (h : lines.length ≤ i) :
    processAux lines g i = [] := by
  cases g with
  | zero => rfl
  | succ g => simp [processAux, Nat.not_lt.mpr h]

theorem tryScan_snd_ge (lines : List String) (i0 : Nat) (header : String) :
    ∀ (js : List String) (j : Nat) (acc : Int) (cur : Nat),
      i0 + 1 ≤ cur → i0 ≤ j →
      i0 + 1 ≤ (tryScan lines i0 header js j acc cur).2 := by
  intro js
  induction js with
  | nil => intro j acc cur h1 h2; simpa [tryScan] using h1
  | cons s rest ih =>
    intro j acc cur h1 h2
    simp only [tryScan]
    split
    · split
      · split
        · cases hk : findCatchEnd lines (j + 1) with
          | none => simp; omega
          | some k =>
            have hk2 := findCatchEnd_le lines (j + 1) k hk
            have h3 := ih (j + 1) (acc + braceDelta s) (k + 1) (by omega) (by omega)
            simpa using h3
        · simp; omega
      · simp; omega
    · split
      · simp; omega
      · exact ih (j + 1) (acc + braceDelta s) cur h1 (by omega)

theorem tryScan_snd_gt (lines : List String) (i0 : Nat) (header : String) :
    ∀ (js : List String) (j : Nat) (acc : Int) (cur : Nat),
      js = lines.drop j → j < lines.length → i0 ≤ j → i0 ≤ cur →
      i0 + 1 ≤ (tryScan lines i0 header js j acc cur).2 := by
  intro js
  induction js with
  | nil =>
    intro j acc cur hjs hj h2 h3
    have hlen : (lines.drop j).length = lines.length - j := List.length_drop j lines
    rw [← hjs] at hlen
    simp at hlen
    omega
  | cons s rest ih =>
    intro j acc cur hjs hj h2 h3
    simp only [tryScan]
    split
    · split
      · split
        · cases hk : findCatchEnd lines (j + 1) with
          | none => simp; omega
          | some k =>
            have hk2 := findCatchEnd_le lines (j + 1) k hk
            have h4 := tryScan_snd_ge lines i0 header rest (j + 1)
              (acc + braceDelta s) (k + 1) (by omega) (by omega)
            simpa using h4
        · simp; omega
      · simp; omega
    · split
      · simp; omega
      · rename_i hfire hlast
        have hrest : rest = lines.drop (j + 1) := by
          have h5 := List.tail_drop lines j
          rw [← hjs] at h5
          simpa using h5
        have hj1 : j + 1 < lines.length := by
          rcases Nat.lt_or_ge (j + 1) lines.length with h | h
          · exact h
          · exact absurd (by omega : j = lines.length - 1) hlast
        exact ih (j + 1) (acc + braceDelta s) cur hrest hj1 (by omega) h3

theorem stepAt_snd_gt (lines : List String) (i : Nat) (h : i < lines.length) :
    i < (stepAt lines i).2 := by
  simp only [stepAt]
  by_cases hm : matchTryOpen (lines.getD i "") = true
  · rw [if_pos hm]
    have h2 := tryScan_snd_gt lines i (lines.getD i "") (lines.drop i) i 0 i rfl h
      (Nat.le_refl i) (Nat.le_refl i)
    omega
  · rw [if_neg hm]
    simp

theorem processAux_fuel (lines : List String) :
    ∀ (g1 g2 i : Nat), lines.length - i ≤ g1 → lines.length - i ≤ g2 →
      processAux lines g1 i = processAux lines g2 i := by
  intro g1
  induction g1 with
  | zero =>
    intro g2 i h1 h2
    have hi : lines.length ≤ i := by omega
    rw [processAux_nil _ _ _ hi, processAux_nil _ _ _ hi]
  | succ a ih =>
    intro g2 i h1 h2
    by_cases hi : i < lines.length
    · obtain ⟨b, rfl⟩ : ∃ b, g2 = b + 1 := ⟨g2 - 1, by omega⟩
      simp only [processAux, if_pos hi]
      have hgt := stepAt_snd_gt lines i hi
      rw [ih b (stepAt lines i).2 (by omega) (by omega)]
    · rw [processAux_nil _ _ _ (by omega), processAux_nil _ _ _ (by omega)]

theorem deltaSum_cons (s : String) (l : List String) :
    deltaSum (s :: l) = braceDelta s + deltaSum l := by
  simp [deltaSum]

theorem scanZero_eq_none (t : Char) :
    ∀ (js : List String) (acc : Int) (j0 : Nat),
      (∀ m, m < js.length → acc + deltaSum (js.take (m + 1)) ≠ 0) →
      scanZero t js acc j0 = none := by
  intro js
  induction js with
  | nil => intro acc j0 h; rfl
  | cons s rest ih =>
    intro acc j0 h
    simp only [scanZero]
    rw [if_neg]
    · apply ih
      intro m hm
      have h2 := h (m + 1) (by simp; omega)
      rw [List.take_succ_cons, deltaSum_cons] at h2
      intro hcon
      apply h2
      omega
    · intro hcon
      obtain ⟨h0, _⟩ := hcon
      apply h 0 (by simp)
      rw [List.take_succ_cons, List.take_zero, deltaSum_cons]
      simpa [deltaSum] using h0

theorem findClose_eq_none (lines : List String) (i : Nat)
    (h : ∀ j, i ≤ j → j < lines.length → braceSum lines i j ≠ 0) :
    findClose lines i = none := by
  unfold findClose
  apply scanZero_eq_none
  intro m hm
  rw [List.length_drop] at hm
  have hj := h (i + m) (by omega) (by omega)
  unfold braceSum at hj
  rw [show i + m + 1 - i = m + 1 by omega] at hj
  simpa using hj

theorem tryScan_noheader (lines : List String) (i0 : Nat) (header : String) (jf : Nat)
    (hch : matchCatchHeader (lines.getD (jf + 1) "") = false) :
    ∀ (js : List String) (j : Nat) (acc : Int) (cur : Nat),
      js = lines.drop j → scanZero lbrace js acc j = some jf →
      tryScan lines i0 header js j acc cur = ([header], cur + 1) := by
  intro js
  induction js with
  | nil => intro j acc cur hjs hscan; simp [scanZero] at hscan
  | cons s rest ih =>
    intro j acc cur hjs hscan
    simp only [scanZero] at hscan
    simp only [tryScan]
    by_cases hc : (acc + braceDelta s = 0 ∧ containsChar lbrace s = true)
    · rw [if_pos hc] at hscan
      injection hscan with hj
      subst hj
      rw [if_pos hc]
      split
      · rw [if_neg]
        intro hcon
        rw [hcon] at hch
        exact Bool.true_eq_false.mp hch
      · rfl
    · rw [if_neg hc] at hscan
      rw [if_neg hc]
      have hrest : rest = lines.drop (j + 1) := by
        have h5 := List.tail_drop lines j
        rw [← hjs] at h5
        simpa using h5
      have hne : rest ≠ [] := by
        intro he
        rw [he] at hscan
        simp [scanZero] at hscan
      have hj1 : j + 1 < lines.length := by
        by_contra hcon
        apply hne
        rw [hrest]
        exact List.drop_eq_nil_of_le (by omega)
      rw [if_neg (by omega : ¬ j = lines.length - 1)]
      exact ih (j + 1) (acc + braceDelta s) cur hrest hscan

theorem tryScan_nofire (lines : List String) (i0 : Nat) (header : String) :
    ∀ (js : List String) (j : Nat) (acc : Int) (cur : Nat),
      js = lines.drop j → js ≠ [] → scanZero lbrace js acc j = none →
      tryScan lines i0 header js j acc cur = ([header], cur + 1) := by
  intro js
  induction js with
  | nil => intro j acc cur hjs hne hscan; exact absurd rfl hne
  | cons s rest ih =>
    intro j acc cur hjs hne hscan
    simp only [scanZero] at hscan
    simp only [tryScan]
    by_cases hc : (acc + braceDelta s = 0 ∧ containsChar lbrace s = true)
    · rw [if_pos hc] at hscan
      exact absurd hscan (by simp)
    · rw [if_neg hc] at hscan
      rw [if_neg hc]
      have hrest : rest = lines.drop (j + 1) := by
        have h5 := List.tail_drop lines j
        rw [← hjs] at h5
        simpa using h5
      have hjlt : j < lines.length := by
        by_contra hcon
        have : lines.drop j = [] := List.drop_eq_nil_of_le (by omega)
        rw [← hjs] at this
        exact absurd this (by simp)
      cases rest with
      | nil =>
        have hj1 : lines.length ≤ j + 1 := by
          by_contra hcon
          have h6 : lines.drop (j + 1) ≠ [] := by
            intro he
            have := List.drop_eq_nil_iff.mp he
            omega
          exact h6 hrest.symm
        rw [if_pos (by omega : j = lines.length - 1)]
      | cons r rs =>
        have hj1 : j + 1 < lines.length := by
          by_contra hcon
          have : lines.drop (j + 1) = [] := List.drop_eq_nil_of_le (by omega)
          rw [← hrest] at this
          exact absurd this (by simp)
        rw [if_neg (by omega : ¬ j = lines.length - 1)]
        exact ih (j + 1) (acc + braceDelta s) cur hrest (by simp) hscan

/-!
Properties of the comment-only matcher.
-/

theorem commentScan_nil (st : Bool) : commentScan st [] = true := by
  cases st <;> rfl

theorem commentScan_true_cons (c : Char) (cs : List Char) :
    commentScan true (c :: cs) =
      if c = '\n' then commentScan false cs else commentScan true cs := rfl

theorem commentScan_false_cons (c : Char) (cs : List Char) :
    commentScan false (c :: cs) =
      (if pyWhite c then commentScan false cs
       else if c = '/' then
         (match cs with
          | d :: cs2 => if d = '/' then commentScan true cs2 else false
          | [] => false)
       else false) := by
  cases cs with
  | nil => rfl
  | cons d cs2 => rfl

theorem commentScan_white :
    ∀ (w : List Char), (∀ c ∈ w, pyWhite c = true) → ∀ st, commentScan st w = true := by
  intro w
  induction w with
  | nil => intro h st; exact commentScan_nil st
  | cons c w ih =>
    intro h st
    have hc : pyWhite c = true := h c (by simp)
    have hw : ∀ d ∈ w, pyWhite d = true := fun d hd => h d (by simp [hd])
    cases st with
    | true =>
      rw [commentScan_true_cons]
      split
      · exact ih hw false
      · exact ih hw true
    | false =>
      rw [commentScan_false_cons, if_pos hc]
      exact ih hw false

theorem commentScan_append_white_aux :
    ∀ (n : Nat) (x w : List Char), x.length ≤ n → (∀ c ∈ w, pyWhite c = true) → ∀ st,
      commentScan st (x ++ w) = commentScan st x := by
  intro n
  induction n with
  | zero =>
    intro x w hx h st
    have hxe : x = [] := List.eq_nil_of_length_eq_zero (by omega)
    subst hxe
    rw [List.nil_append, commentScan_white w h st, commentScan_nil]
  | succ n ih =>
    intro x w hx h st
    cases x with
    | nil => rw [List.nil_append, commentScan_white w h st, commentScan_nil]
    | cons c x2 =>
      have hx2 : x2.length ≤ n := by simp at hx; omega
      cases st with
      | true =>
        rw [List.cons_append, commentScan_true_cons, commentScan_true_cons]
        split
        · exact ih x2 w hx2 h false
        · exact ih x2 w hx2 h true
      | false =>
        rw [List.cons_append, commentScan_false_cons, commentScan_false_cons]
        by_cases hc : pyWhite c = true
        · rw [if_pos hc, if_pos hc]
          exact ih x2 w hx2 h false
        · rw [if_neg hc, if_neg hc]
          by_cases hs : c = '/'
          · rw [if_pos hs, if_pos hs]
            cases x2 with
            | nil =>
              cases w with
              | nil => rfl
              | cons e w2 =>
                have he : pyWhite e = true := h e (by simp)
                have hne : ¬ e = '/' := by
                  intro hcon
                  rw [hcon] at he
                  simp [pyWhite] at he
                rw [List.nil_append]
                simp [hne]
            | cons d x3 =>
              have hx3 : x3.length ≤ n := by simp at hx; omega
              rw [List.cons_append]
              simp only []
              split
              · exact ih x3 w hx3 h true
              · rfl
          · rw [if_neg hs, if_neg hs]

theorem commentScan_append_white (x w : List Char) (h : ∀ c ∈ w, pyWhite c = true)
    (st : Bool) : commentScan st (x ++ w) = commentScan st x :=
  commentScan_append_white_aux x.length x w (Nat.le_refl _) h st

theorem commentScan_true_nonl :
    ∀ (x : List Char), (∀ c ∈ x, ¬ c = '\n') → commentScan true x = true := by
  intro x
  induction x with
  | nil => intro h; rfl
  | cons c x ih =>
    intro h
    rw [commentScan_true_cons, if_neg (h c (by simp))]
    exact ih (fun d hd => h d (by simp [hd]))

theorem commentScan_true_append (r : List Char) :
    ∀ (x : List Char), (∀ c ∈ x, ¬ c = '\n') →
      commentScan true (x ++ '\n' :: r) = commentScan false r := by
  intro x
  induction x with
  | nil =>
    intro h
    rw [List.nil_append, commentScan_true_cons, if_pos rfl]
  | cons c x ih =>
    intro h
    rw [List.cons_append, commentScan_true_cons, if_neg (h c (by simp))]
    exact ih (fun d hd => h d (by simp [hd]))

theorem goodLineChars_cons_white (c : Char) (l : List Char) (hc : pyWhite c = true) :
    goodLineChars (c :: l) = goodLineChars l := by
  simp [goodLineChars, List.dropWhile_cons, hc]

theorem goodLineChars_cons_black (c : Char) (l : List Char) (hc : ¬ pyWhite c = true) :
    goodLineChars (c :: l) =
      (c = '/' && (match l with | d :: _ => d = '/' | [] => false) : Bool) := by
  simp [goodLineChars, List.dropWhile_cons, hc]

theorem commentScan_line :
    ∀ (l : List Char), (∀ c ∈ l, ¬ c = '\n') → commentScan false l = goodLineChars l := by
  intro l
  induction l with
  | nil => intro h; rfl
  | cons c l ih =>
    intro h
    by_cases hc : pyWhite c = true
    · rw [goodLineChars_cons_white c l hc, commentScan_false_cons, if_pos hc]
      exact ih (fun d hd => h d (by simp [hd]))
    · rw [commentScan_false_cons, if_neg hc, goodLineChars_cons_black c l hc]
      by_cases hs : c = '/'
      · rw [if_pos hs]
        cases l with
        | nil => simp [hs]
        | cons d l2 =>
          by_cases hd : d = '/'
          · simp only [hd, if_true]
            rw [commentScan_true_nonl l2 (fun e he => h e (by simp [he]))]
            simp [hs]
          · simp [hs, hd]
      · rw [if_neg hs]
        simp [hs]

theorem commentScan_line_append (r : List Char) :
    ∀ (l : List Char), (∀ c ∈ l, ¬ c = '\n') →
      commentScan false (l ++ '\n' :: r) = (goodLineChars l && commentScan false r) := by
  intro l
  induction l with
  | nil =>
    intro h
    rw [List.nil_append, commentScan_false_cons,
      if_pos (by simp [pyWhite] : pyWhite '\n' = true)]
    simp [goodLineChars]
  | cons c l ih =>
    intro h
    by_cases hc : pyWhite c = true
    · rw [goodLineChars_cons_white c l hc, List.cons_append, commentScan_false_cons, if_pos hc]
      exact ih (fun d hd => h d (by simp [hd]))
    · rw [List.cons_append, commentScan_false_cons, if_neg hc, goodLineChars_cons_black c l hc]
      by_cases hs : c = '/'
      · rw [if_pos hs]
        cases l with
        | nil =>
          rw [List.nil_append]
          simp only []
          rw [if_neg (by simp : ¬ '\n' = '/')]
          simp [hs]
        | cons d l2 =>
          by_cases hd : d = '/'
          · rw [List.cons_append]
            simp only [hd, if_true]
            rw [commentScan_true_append r l2 (fun e he => h e (by simp [he]))]
            simp [hs]
          · rw [List.cons_append]
            simp [hs, hd]
      · rw [if_neg hs]
        simp [hs]

theorem commentScan_join :
    ∀ (body : List String), (∀ s ∈ body, ∀ c ∈ s.toList, ¬ c = '\n') →
      commentScan false (joinNL body) = body.all goodLine := by
  intro body
  induction body with
  | nil => intro h; rfl
  | cons s rest ih =>
    intro h
    cases rest with
    | nil =>
      show commentScan false s.toList = _
      rw [commentScan_line s.toList (h s (by simp))]
      simp [goodLine]
    | cons t r2 =>
      show commentScan false (s.toList ++ '\n' :: joinNL (t :: r2)) = _
      rw [commentScan_line_append (joinNL (t :: r2)) s.toList (h s (by simp))]
      rw [ih (fun u hu => h u (List.mem_cons_of_mem s hu))]
      simp [goodLine]

theorem commentScan_dropWhile (cs : List Char) :
    commentScan false (cs.dropWhile pyWhite) = commentScan false cs := by
  induction cs with
  | nil => rfl
  | cons c cs ih =>
    by_cases hc : pyWhite c = true
    · rw [List.dropWhile_cons_of_pos hc, ih, commentScan_false_cons, if_pos hc]
    · rw [List.dropWhile_cons_of_neg (by simpa using hc)]

theorem commentScan_strip (cs : List Char) :
    commentScan false (pyStripList cs) = commentScan false cs := by
  unfold pyStripList
  rw [← commentScan_dropWhile cs]
  set y := cs.dropWhile pyWhite with hy
  have hdec : y = (y.reverse.dropWhile pyWhite).reverse ++ (y.reverse.takeWhile pyWhite).reverse := by
    have h1 : y.reverse.takeWhile pyWhite ++ y.reverse.dropWhile pyWhite = y.reverse :=
      List.takeWhile_append_dropWhile pyWhite y.reverse
    have h2 := congrArg List.reverse h1
    rw [List.reverse_append, List.reverse_reverse] at h2
    exact h2.symm
  have hw : ∀ c ∈ (y.reverse.takeWhile pyWhite).reverse, pyWhite c = true := by
    intro c hcm
    rw [List.mem_reverse] at hcm
    exact List.mem_takeWhile_imp hcm
  calc commentScan false (y.reverse.dropWhile pyWhite).reverse
      = commentScan false ((y.reverse.dropWhile pyWhite).reverse ++ (y.reverse.takeWhile pyWhite).reverse) := by
        rw [commentScan_append_white _ _ hw false]
    _ = commentScan false y := by rw [← hdec]

/-!
The claims.
-/

/-- C1: the spec states that every try/catch pair whose catch body consists
only of comment lines is replaced by its unwrapped try body, with the catch
block absent from the output.  The code does not do this: on this example the
catch body is comment-only, the header and catch-header patterns match, yet
the try scan's close condition (which demands an opening brace on the
closing line) never fires and the whole construct is emitted unchanged. -/
theorem c1_comment_only_catch_kept :
    rewriteLines ["try \x7b", "  foo();", "\x7d catch (err) \x7b", "  // nope", "\x7d"]
        = ["try \x7b", "  foo();", "\x7d catch (err) \x7b", "  // nope", "\x7d"] ∧
      commentOnlyCheck ["  // nope"] = true ∧
      matchTryOpen "try \x7b" = true ∧
      matchCatchHeader "\x7d catch (err) \x7b" = true := by
  decide

/-- C2: the spec's concrete example claims the five-line try/catch with the
ignored-error comment rewrites to the single line of its body.  The code
instead returns the text unchanged. -/
theorem c2_spec_example_unchanged :
    rewriteText "try \x7b\n  doWork();\n\x7d catch (_error) \x7b\n  // ignored\n\x7d"
        = "try \x7b\n  doWork();\n\x7d catch (_error) \x7b\n  // ignored\n\x7d" ∧
      ¬ rewriteText "try \x7b\n  doWork();\n\x7d catch (_error) \x7b\n  // ignored\n\x7d"
        = "  doWork();" := by
  decide

/-- C3: the spec states that a try/catch pair whose catch body holds a
non-comment token is left byte-identical over its span.  The code violates
this: here lines 0 through 4 form a try/catch pair whose body holds the
statement log(e), yet the rewritten output differs on that span, because a
later balanced-brace line plus a stray catch header make the scan fire and
strip the try header of the pair. -/
theorem c3_noncomment_span_altered :
    rewriteLines ["try \x7b", "  a();", "\x7d catch (e) \x7b", "  log(e);", "\x7d",
          "x = \x7b\x7d;", "\x7d catch (f) \x7b"]
        = ["", "  a();", "\x7d catch (e) \x7b", "  log(e);", "\x7d", "x = \x7b\x7d;",
          "try \x7b"] ∧
      ¬ (rewriteLines ["try \x7b", "  a();", "\x7d catch (e) \x7b", "  log(e);", "\x7d",
          "x = \x7b\x7d;", "\x7d catch (f) \x7b"]).take 5
        = ["try \x7b", "  a();", "\x7d catch (e) \x7b", "  log(e);", "\x7d"] := by
  decide

/-- C4: the spec states that input lines outside any try construct are never
altered or deleted.  The code violates this: the stray catch-header line at
index 6 lies after the complete try/catch construct of lines 0 through 4,
yet it is absent from the output (as is the final line). -/
theorem c4_outside_line_deleted :
    rewriteLines ["try \x7b", "  b();", "\x7d catch (g) \x7b", "  warn(g);", "\x7d",
          "y = \x7b\x7d;", "\x7d catch (h) \x7b", "tail();"]
        = ["", "  b();", "\x7d catch (g) \x7b", "  warn(g);", "\x7d", "y = \x7b\x7d;",
          "try \x7b"] ∧
      "\x7d catch (h) \x7b" ∈ ["try \x7b", "  b();", "\x7d catch (g) \x7b", "  warn(g);",
          "\x7d", "y = \x7b\x7d;", "\x7d catch (h) \x7b", "tail();"] ∧
      ¬ "\x7d catch (h) \x7b" ∈ rewriteLines ["try \x7b", "  b();", "\x7d catch (g) \x7b",
          "  warn(g);", "\x7d", "y = \x7b\x7d;", "\x7d catch (h) \x7b", "tail();"] := by
  decide

/-- C5: the spec claims the rewriter is idempotent.  It is not: on this
input the first pass leaves a removable inner construct behind, and a second
pass rewrites it again. -/
theorem c5_not_idempotent :
    ¬ rewriteLines (rewriteLines ["try \x7b", "try \x7b \x7d", "\x7d catch (e) \x7b",
          "\x7d", "q = \x7b\x7d;", "\x7d catch (f) \x7b", "z"])
      = rewriteLines ["try \x7b", "try \x7b \x7d", "\x7d catch (e) \x7b", "\x7d",
          "q = \x7b\x7d;", "\x7d catch (f) \x7b", "z"] := by
  decide

/-- C6: the spec says the try block is considered closed at the first line
where the accumulated brace count returns to zero and that holds a closing
brace.  The code instead demands an opening brace there: on this input the
count returns to zero at line 1, which holds a closing brace, but the code's
scan fires only at line 2 (which holds an opening brace), and consequently
the comment-only catch is never seen and the text is returned unchanged. -/
theorem c6_close_scan_uses_open_brace :
    findClose ["try \x7b", "\x7d", "\x7d catch (e) \x7b", "  // c", "\x7d"] 0 = some 2 ∧
      closeScanSpec ["try \x7b", "\x7d", "\x7d catch (e) \x7b", "  // c", "\x7d"] 0 = some 1 ∧
      braceSum ["try \x7b", "\x7d", "\x7d catch (e) \x7b", "  // c", "\x7d"] 0 1 = 0 ∧
      containsChar rbrace "\x7d" = true ∧
      rewriteLines ["try \x7b", "\x7d", "\x7d catch (e) \x7b", "  // c", "\x7d"]
        = ["try \x7b", "\x7d", "\x7d catch (e) \x7b", "  // c", "\x7d"] := by
  decide

/-- C7 counterexample: the claim says that when the line after a try block's
closing line is not a catch header, the whole construct is left untouched
and nested try/catch pairs inside it are never separately evaluated.  On
this input the outer try (closing at line 3, followed by a non-catch line)
contains a nested removable try/catch, and the output shows the nested pair
was evaluated and removed, so the construct is not left untouched. -/
theorem c7_nested_removed_counterexample :
    rewriteLines ["try \x7b", "try \x7b \x7d", "\x7d catch (e) \x7b", "\x7d", "no"]
        = ["try \x7b", " ", "try \x7b \x7d", "no"] ∧
      ¬ ["try \x7b", " ", "try \x7b \x7d", "no"]
        = ["try \x7b", "try \x7b \x7d", "\x7d catch (e) \x7b", "\x7d", "no"] := by
  decide

/-- C7 amended: when the first line at which the code's close condition
fires is followed by a line that does not match the catch header pattern,
only the try header line is emitted unchanged and scanning resumes at the
line immediately after the header, so nested constructs inside the try body
are re-examined and may themselves be rewritten. -/
theorem c7_no_catch_keeps_header_resumes_next (lines : List String) (g i j : Nat)
    (h1 : i < lines.length) (h2 : matchTryOpen (lines.getD i "") = true)
    (h3 : findClose lines i = some j)
    (h4 : matchCatchHeader (lines.getD (j + 1) "") = false) :
    processAux lines (g + 1) i = lines.getD i "" :: processAux lines g (i + 1) := by
  have hstep : stepAt lines i = ([lines.getD i ""], i + 1) := by
    simp only [stepAt]
    rw [if_pos h2]
    exact tryScan_noheader lines i (lines.getD i "") j h4 (lines.drop i) i 0 i rfl
      (by simpa [findClose] using h3)
  simp only [processAux, if_pos h1, hstep]
  simp

/-- C7 witness: the amended branch behavior at a concrete input. -/
theorem c7_no_catch_keeps_header_witness :
    processAux ["try \x7b \x7d", "next"] 2 0
      = "try \x7b \x7d" :: processAux ["try \x7b \x7d", "next"] 1 1 :=
  c7_no_catch_keeps_header_resumes_next ["try \x7b \x7d", "next"] 1 0 0
    (by decide) (by decide) (by decide) (by decide)

/-- C8: a catch body is classified comment-only exactly when every one of
its lines, after trimming whitespace, is empty or begins with the
single-line-comment marker; bodies are lists of newline-free lines since the
script splits the file on newlines. -/
theorem c8_comment_only_iff (body : List String)
    (h : ∀ s ∈ body, ∀ c ∈ s.toList, ¬ c = '\n') :
    (commentOnlyCheck body = true ↔ ∀ s ∈ body, goodLine s = true) := by
  unfold commentOnlyCheck
  rw [commentScan_strip, commentScan_join body h]
  exact List.all_eq_true

/-- C8 witness: the classification at a concrete comment-only body. -/
theorem c8_comment_only_iff_witness :
    (commentOnlyCheck ["  // a", "", "\t// b"] = true ↔
      ∀ s ∈ (["  // a", "", "\t// b"] : List String), goodLine s = true) :=
  c8_comment_only_iff ["  // a", "", "\t// b"] (by decide)

/-- C9 counterexample: the claim says that when a try block's braces never
rebalance before end of input, all remaining lines from the try header to
the end are copied through unchanged.  On this input the accumulated count
from the header never returns to zero, yet the output differs from the
input: the nested construct on line 1 is rewritten and lines are lost. -/
theorem c9_unbalanced_not_copied :
    braceSum ["try \x7b", "try \x7b \x7d", "\x7d catch (e) \x7b", "x"] 0 0 = 1 ∧
      braceSum ["try \x7b", "try \x7b \x7d", "\x7d catch (e) \x7b", "x"] 0 1 = 1 ∧
      braceSum ["try \x7b", "try \x7b \x7d", "\x7d catch (e) \x7b", "x"] 0 2 = 1 ∧
      braceSum ["try \x7b", "try \x7b \x7d", "\x7d catch (e) \x7b", "x"] 0 3 = 1 ∧
      rewriteLines ["try \x7b", "try \x7b \x7d", "\x7d catch (e) \x7b", "x"]
        = ["try \x7b", " ", "try \x7b \x7d"] ∧
      ¬ ["try \x7b", " ", "try \x7b \x7d"]
        = ["try \x7b", "try \x7b \x7d", "\x7d catch (e) \x7b", "x"] := by
  decide

/-- C9 amended: when the accumulated brace count of a try block never
returns to zero before end of input, no error occurs; the try header line
alone is copied through unchanged and scanning resumes at the following
line, whose contents are then re-examined as fresh input. -/
theorem c9_unbalanced_emits_header (lines : List String) (g i : Nat)
    (h1 : i < lines.length) (h2 : matchTryOpen (lines.getD i "") = true)
    (h3 : ∀ j, i ≤ j → j < lines.length → braceSum lines i j ≠ 0) :
    processAux lines (g + 1) i = lines.getD i "" :: processAux lines g (i + 1) := by
  have hnone : findClose lines i = none := findClose_eq_none lines i h3
  have hne : lines.drop i ≠ [] := by
    intro he
    have := List.drop_eq_nil_iff.mp he
    omega
  have hstep : stepAt lines i = ([lines.getD i ""], i + 1) := by
    simp only [stepAt]
    rw [if_pos h2]
    exact tryScan_nofire lines i (lines.getD i "") (lines.drop i) i 0 i rfl hne
      (by simpa [findClose] using hnone)
  simp only [processAux, if_pos h1, hstep]
  simp

/-- C9 witness: the amended behavior at a concrete unbalanced input. -/
theorem c9_unbalanced_emits_header_witness :
    processAux ["try \x7b"] 1 0 = "try \x7b" :: processAux ["try \x7b"] 0 1 := by
  apply c9_unbalanced_emits_header ["try \x7b"] 0 0 (by decide) (by decide)
  intro j hj1 hj2
  have hj0 : j = 0 := by
    simp at hj2
    omega
  subst hj0
  decide

/-- C10 counterexample: the claim says the output never gains lines.  On
this input of seven lines the scan fires twice inside one iteration of the
outer loop, emitting overlapping spans plus the header again, so the output
has ten lines. -/
theorem c10_output_gains_lines :
    (rewriteLines ["try \x7b \x7d", "\x7d catch (e) \x7b \x7b", "x();", "\x7d",
          "y = \x7b\x7d;", "\x7d catch (f) \x7b \x7b", "\x7d"]).length = 10 ∧
      (["try \x7b \x7d", "\x7d catch (e) \x7b \x7b", "x();", "\x7d", "y = \x7b\x7d;",
          "\x7d catch (f) \x7b \x7b", "\x7d"] : List String).length = 7 := by
  decide

/-- C10 amended: the index i strictly increases in every iteration of the
main scan, so the scan terminates after at most as many iterations as there
are lines (any fuel of at least that number yields the same result); the
output, however, may gain lines. -/
theorem c10_terminates_within_length (lines : List String) (g : Nat)
    (hg : lines.length ≤ g) :
    processAux lines g 0 = rewriteLines lines ∧
      ∀ i, i < lines.length → i < (stepAt lines i).2 := by
  constructor
  · unfold rewriteLines
    exact processAux_fuel lines g lines.length 0 (by omega) (by omega)
  · exact fun i hi => stepAt_snd_gt lines i hi

/-- C10 witness: fuel beyond the line count is irrelevant at a concrete
input, and the step index strictly increases there. -/
theorem c10_terminates_within_length_witness :
    processAux ["a"] 3 0 = rewriteLines ["a"] ∧
      ∀ i, i < (["a"] : List String).length → i < (stepAt ["a"] i).2 :=
  c10_terminates_within_length ["a"] 3 (by decide)

